import Mathlib

/-!
Shallow embedding of the `virtual_audio` repository's core
(`src/buffer.rs`, `src/audio.rs`, `src/lib.rs`) and proofs of the
spec's claims about it.

Modelling conventions:
* `u8` bytes are `Fin 256`; byte slices are `List (Fin 256)`.
* `usize` cursors and counts are `Nat` (the cursors are monotone
  counters; the spec notes their machine-width overflow as out of
  scope for a session).
* `f32`/`f64` sample values and the stored `resample_factor` are
  modelled as exact rationals `ℚ`; an `f64 as usize` cast (truncation
  toward zero, saturating at 0 from below) is `ratToUsize`.
* A Rust slice is a `List`; writing through an `&mut [f32]` output
  slice returns the updated list.
* `Result<T, Error>` is `Except Error T`.
-/

namespace VirtualAudio

/-- Model of `Error` from `src/lib.rs` (the `IoError` payload is kept
abstract as a unit, its contents never matter to the core). -/
inductive Error where
  | BufferError (msg : String)
  | AudioError (msg : String)
  | PlatformError (msg : String)
  | IoError
  | Other (msg : String)
deriving Repr, DecidableEq

/-- Model of `AudioFormat` from `src/lib.rs`. -/
inductive AudioFormat where
  | F32LE
  | S16LE
  | S24LE
  | S32LE
deriving Repr, DecidableEq

/-- Model of `AudioFormat::bytes_per_sample`. -/
def AudioFormat.bytes_per_sample : AudioFormat → Nat
  | .F32LE => 4
  | .S16LE => 2
  | .S24LE => 3
  | .S32LE => 4

/-- Two's-complement reading of a 16-bit unsigned value
(`i16::from_le_bytes` applied to an assembled little-endian value). -/
def toSigned16 (v : Nat) : ℤ :=
  if v < 2 ^ 15 then (v : ℤ) else (v : ℤ) - 2 ^ 16

/-- Two's-complement reading of a 32-bit unsigned value
(`i32::from_le_bytes` applied to an assembled little-endian value). -/
def toSigned32 (v : Nat) : ℤ :=
  if v < 2 ^ 31 then (v : ℤ) else (v : ℤ) - 2 ^ 32

/-- Little-endian assembly of two bytes. -/
def leVal2 (b0 b1 : Fin 256) : Nat := b0.val + 256 * b1.val

/-- Little-endian assembly of four bytes. -/
def leVal4 (b0 b1 b2 b3 : Fin 256) : Nat :=
  b0.val + 256 * b1.val + 65536 * b2.val + 16777216 * b3.val

/-- Exact value of an IEEE-754 binary32 little-endian encoding, as a
rational.  Exponent 255 (infinities and NaNs) has no rational value;
it is mapped to 0, and no claim depends on samples decoded from such
bytes (only on how many samples are produced). -/
def decodeF32LE (b0 b1 b2 b3 : Fin 256) : ℚ :=
  let bits := leVal4 b0 b1 b2 b3
  let sign : ℚ := if 2 ^ 31 ≤ bits then -1 else 1
  let e : Nat := bits / 2 ^ 23 % 256
  let m : Nat := bits % 2 ^ 23
  if e = 255 then 0
  else if e = 0 then sign * ((m : ℚ) / 2 ^ 149)
  else sign * (((2 ^ 23 + m : Nat) : ℚ) * 2 ^ e / 2 ^ 150)

/-- Model of `AudioProcessor` from `src/audio.rs`.  The stored
`resample_factor: f64` is modelled as an exact rational. -/
structure AudioProcessor where
  input_sample_rate : Nat
  output_sample_rate : Nat
  channels : Nat
  format : AudioFormat
  resample_factor : ℚ

/-- Model of `AudioProcessor::new`. -/
def AudioProcessor.new (input_sample_rate output_sample_rate channels : Nat)
    (format : AudioFormat) : AudioProcessor :=
  { input_sample_rate := input_sample_rate
    output_sample_rate := output_sample_rate
    channels := channels
    format := format
    resample_factor := (output_sample_rate : ℚ) / (input_sample_rate : ℚ) }

/-- Model of `f64 as usize` for the nonnegative finite values arising
here: truncation toward zero, saturating at 0 for negative values. -/
def ratToUsize (q : ℚ) : Nat := q.floor.toNat

/-- Model of `AudioProcessor::bytes_to_samples` from `src/audio.rs`.
Each branch reads `num_samples` groups of `bytes_per_sample` bytes.
In the `S24LE` branch the code builds `[b0, b1, b2, 0]` — the high
byte is left at zero (no sign extension), exactly as in the source. -/
def AudioProcessor.bytes_to_samples (_p : AudioProcessor)
    (input : List (Fin 256)) (input_format : AudioFormat) : List ℚ :=
  let bytes_per_sample := input_format.bytes_per_sample
  let num_samples := input.length / bytes_per_sample
  let byte := fun i => input.getD i (0 : Fin 256)
  match input_format with
  | .F32LE =>
      (List.range num_samples).map fun i =>
        let start := i * 4
        decodeF32LE (byte start) (byte (start + 1)) (byte (start + 2))
          (byte (start + 3))
  | .S16LE =>
      (List.range num_samples).map fun i =>
        let start := i * 2
        let s16 := toSigned16 (leVal2 (byte start) (byte (start + 1)))
        (s16 : ℚ) / 32767
  | .S24LE =>
      (List.range num_samples).map fun i =>
        let start := i * 3
        let s24 := toSigned32
          (leVal4 (byte start) (byte (start + 1)) (byte (start + 2)) 0)
        (s24 : ℚ) / 8388607
  | .S32LE =>
      (List.range num_samples).map fun i =>
        let start := i * 4
        let s32 := toSigned32
          (leVal4 (byte start) (byte (start + 1)) (byte (start + 2))
            (byte (start + 3)))
        (s32 : ℚ) / 2147483647

/-- Model of `AudioProcessor::process`.  The `&mut [f32]` output slice
is passed in as a list and the updated list is returned beside the
sample count. -/
def AudioProcessor.process (p : AudioProcessor) (input output : List ℚ) :
    Except Error (List ℚ × Nat) :=
  let to_process := min input.length output.length
  if p.input_sample_rate = p.output_sample_rate then
    Except.ok (input.take to_process ++ output.drop to_process, to_process)
  else
    let output_len := ratToUsize ((input.length : ℚ) * p.resample_factor)
    let actual_output := min output_len output.length
    let result := (List.range actual_output).foldl
      (fun acc (i : Nat) =>
        let src_idx := ratToUsize ((i : ℚ) / p.resample_factor)
        if src_idx < input.length then acc.set i (input.getD src_idx 0) else acc)
      output
    Except.ok (result, actual_output)

/-- Model of `AudioProcessor::needs_resampling`. -/
def AudioProcessor.needs_resampling (p : AudioProcessor) : Bool :=
  p.input_sample_rate ≠ p.output_sample_rate

/-- Model of `Resampler` from `src/audio.rs`. -/
structure Resampler where
  input_rate : Nat
  output_rate : Nat
  channels : Nat

/-- Model of `Resampler::new`. -/
def Resampler.new (input_rate output_rate channels : Nat) : Resampler :=
  { input_rate := input_rate, output_rate := output_rate, channels := channels }

/-- Model of `Resampler::process`: the push-or-skip loop body becomes a
`filterMap` over the output index range. -/
def Resampler.process (r : Resampler) (input : List ℚ) : Except Error (List ℚ) :=
  if r.input_rate = r.output_rate then
    Except.ok input
  else
    let ratio : ℚ := (r.output_rate : ℚ) / (r.input_rate : ℚ)
    let output_len := ratToUsize ((input.length : ℚ) * ratio)
    let out := (List.range output_len).filterMap fun (i : Nat) =>
      let pos : ℚ := (i : ℚ) / ratio
      let src_idx := ratToUsize pos
      let frac : ℚ := pos - (src_idx : ℚ)
      if src_idx + 1 < input.length then
        let y0 := input.getD src_idx 0
        let y1 := input.getD (src_idx + 1) 0
        some (y0 + (y1 - y0) * frac)
      else if src_idx < input.length then
        some (input.getD src_idx 0)
      else
        none
    Except.ok out

/-- Doubling loop of `usize::next_power_of_two`, with explicit fuel
(the fuel `n` always suffices, since doubling from 1 reaches `n`
within `n` steps). -/
def nextPowerOfTwoGo : Nat → Nat → Nat → Nat
  | 0, _, power => power
  | fuel + 1, n, power =>
      if power < n then nextPowerOfTwoGo fuel n (power * 2) else power

/-- Model of `usize::next_power_of_two`: smallest power of two `≥ n`
(returns 1 for 0). -/
def next_power_of_two (n : Nat) : Nat := nextPowerOfTwoGo n n 1

/-- Model of `RingBuffer<T>` from `src/buffer.rs`.  The atomic cursors
are plain naturals: the spec's SPSC protocol makes every operation in
a sequential history see both cursors exactly as stored. -/
structure RingBuffer (α : Type) where
  data : List α
  write_pos : Nat
  read_pos : Nat
  capacity : Nat
  mask : Nat

/-- Model of `RingBuffer::new`. -/
def RingBuffer.new (α : Type) [Inhabited α] (capacity : Nat) : RingBuffer α :=
  let capacity := next_power_of_two capacity
  let mask := capacity - 1
  { data := List.replicate capacity default
    write_pos := 0
    read_pos := 0
    capacity := capacity
    mask := mask }

/-- The write loop of `RingBuffer::write`: store each sample at
`(write_pos + i) & mask`, iterated by advancing the position. -/
def writeData {α : Type} (data : List α) (pos mask : Nat) : List α → List α
  | [] => data
  | x :: xs => writeData (data.set (pos &&& mask) x) (pos + 1) mask xs

/-- Model of `RingBuffer::write`: returns the updated buffer and the
number of samples actually written. -/
def RingBuffer.write {α : Type} (b : RingBuffer α) (samples : List α) :
    RingBuffer α × Nat :=
  let available := b.capacity - (b.write_pos - b.read_pos)
  let to_write := min samples.length available
  if to_write = 0 then (b, 0)
  else
    ({ b with
        data := writeData b.data b.write_pos b.mask (samples.take to_write)
        write_pos := b.write_pos + to_write },
     to_write)

/-- Model of `RingBuffer::read`: returns the updated buffer and the
samples copied into the output slice (`output_len` is the slice's
length; the copied prefix is returned). -/
def RingBuffer.read {α : Type} [Inhabited α] (b : RingBuffer α)
    (output_len : Nat) : RingBuffer α × List α :=
  let available := b.write_pos - b.read_pos
  let to_read := min output_len available
  if to_read = 0 then (b, [])
  else
    ({ b with read_pos := b.read_pos + to_read },
     (List.range to_read).map fun i =>
       b.data.getD ((b.read_pos + i) &&& b.mask) default)

/-- Model of `RingBuffer::available`. -/
def RingBuffer.available {α : Type} (b : RingBuffer α) : Nat :=
  b.write_pos - b.read_pos

/-- Model of `RingBuffer::free_space`. -/
def RingBuffer.free_space {α : Type} (b : RingBuffer α) : Nat :=
  b.capacity - b.available

/-- Model of `RingBuffer::clear`. -/
def RingBuffer.clear {α : Type} (b : RingBuffer α) : RingBuffer α :=
  { b with read_pos := b.write_pos }

/-- An operation on a `RingBuffer`, for quantifying over sequences of
`write`, `read` and `clear` calls. -/
inductive RBOp (α : Type) where
  | write (samples : List α)
  | read (output_len : Nat)
  | clear

/-- State reached after one `RingBuffer` operation. -/
def RingBuffer.applyOp {α : Type} [Inhabited α] (b : RingBuffer α) :
    RBOp α → RingBuffer α
  | .write s => (b.write s).1
  | .read n => (b.read n).1
  | .clear => b.clear

/-- State reached after a sequence of `RingBuffer` operations. -/
def RingBuffer.runOps {α : Type} [Inhabited α] (b : RingBuffer α)
    (ops : List (RBOp α)) : RingBuffer α :=
  ops.foldl RingBuffer.applyOp b

/-- Well-formedness of a `RingBuffer` state: the cursor ordering
invariant together with the structural facts established by `new`
(storage length equals capacity, mask is capacity minus one, capacity
is a power of two). -/
def RingBuffer.Wf {α : Type} (b : RingBuffer α) : Prop :=
  b.read_pos ≤ b.write_pos ∧ b.write_pos ≤ b.read_pos + b.capacity ∧
    b.data.length = b.capacity ∧ b.mask = b.capacity - 1 ∧
    ∃ k, b.capacity = 2 ^ k

/-- Model of `TripleRingBuffer` from `src/buffer.rs`. -/
structure TripleRingBuffer where
  ring_input : RingBuffer ℚ
  ring_resample : RingBuffer ℚ
  ring_output : RingBuffer ℚ

/-- Model of `TripleRingBuffer::new`. -/
def TripleRingBuffer.new (buffer_size : Nat) : TripleRingBuffer :=
  { ring_input := RingBuffer.new ℚ buffer_size
    ring_resample := RingBuffer.new ℚ buffer_size
    ring_output := RingBuffer.new ℚ buffer_size }

/-- Model of `TripleRingBuffer::process`: returns the updated state,
the samples copied into the output slice, and the returned count. -/
def TripleRingBuffer.process (t : TripleRingBuffer) (input : List ℚ)
    (output_len : Nat) : Except Error (TripleRingBuffer × List ℚ × Nat) :=
  let wr := t.ring_input.write input
  let written := wr.2
  let rd := wr.1.read written
  let read := rd.2.length
  let rw := t.ring_resample.write (rd.2.take read)
  let out := t.ring_output.read output_len
  Except.ok
    ({ ring_input := rd.1, ring_resample := rw.1, ring_output := out.1 },
     out.2, out.2.length)

/-- Model of `TripleRingBuffer::clear_all`. -/
def TripleRingBuffer.clear_all (t : TripleRingBuffer) : TripleRingBuffer :=
  { ring_input := t.ring_input.clear
    ring_resample := t.ring_resample.clear
    ring_output := t.ring_output.clear }

/-- An operation on a `TripleRingBuffer`, for quantifying over
sequences of `process` and `clear_all` calls. -/
inductive TROp where
  | process (input : List ℚ) (output_len : Nat)
  | clear_all

/-- State reached after one `TripleRingBuffer` operation. -/
def TripleRingBuffer.applyOp (t : TripleRingBuffer) : TROp → TripleRingBuffer
  | .process input n =>
      match t.process input n with
      | .ok r => r.1
      | .error _ => t
  | .clear_all => t.clear_all

/-- State reached after a sequence of `TripleRingBuffer` operations. -/
def TripleRingBuffer.runOps (t : TripleRingBuffer) (ops : List TROp) :
    TripleRingBuffer :=
  ops.foldl TripleRingBuffer.applyOp t

/-! ## Helper lemmas -/

theorem rat_floor_eq (q : ℚ) : q.floor = ⌊q⌋ :=
  (Rat.floor_def' q).trans Rat.floor_def.symm

theorem ratToUsize_eq (q : ℚ) : ratToUsize q = ⌊q⌋.toNat := by
  rw [ratToUsize, rat_floor_eq]

theorem ratToUsize_natCast (n : Nat) : ratToUsize (n : ℚ) = n := by
  rw [ratToUsize_eq, Int.floor_natCast, Int.toNat_natCast]

theorem ratToUsize_natCast_div (a b : Nat) :
    ratToUsize ((a : ℚ) / (b : ℚ)) = a / b := by
  rw [ratToUsize_eq, Int.floor_toNat, Nat.floor_div_nat, Nat.floor_natCast]

theorem nextPowerOfTwoGo_spec :
    ∀ (fuel k n : Nat), n ≤ 2 ^ (k + fuel) →
      ∃ j, k ≤ j ∧ nextPowerOfTwoGo fuel n (2 ^ k) = 2 ^ j ∧ n ≤ 2 ^ j ∧
        ∀ m, k ≤ m → n ≤ 2 ^ m → 2 ^ j ≤ 2 ^ m
  | 0, k, n, h =>
    ⟨k, le_rfl, rfl, by simpa using h,
      fun m hm _ => Nat.pow_le_pow_right (by norm_num) hm⟩
  | fuel + 1, k, n, h => by
    show ∃ j, k ≤ j ∧ (if 2 ^ k < n then nextPowerOfTwoGo fuel n (2 ^ k * 2)
        else 2 ^ k) = 2 ^ j ∧ _
    by_cases hlt : 2 ^ k < n
    · rw [if_pos hlt, show 2 ^ k * 2 = 2 ^ (k + 1) by ring]
      have hrec : n ≤ 2 ^ (k + 1 + fuel) := by
        have : k + 1 + fuel = k + (fuel + 1) := by omega
        rw [this]; exact h
      obtain ⟨j, hkj, heq, hn, hmin⟩ := nextPowerOfTwoGo_spec fuel (k + 1) n hrec
      refine ⟨j, by omega, heq, hn, fun m hm hnm => ?_⟩
      refine hmin m ?_ hnm
      by_contra hc
      have hmk : m ≤ k := by omega
      have : 2 ^ m ≤ 2 ^ k := Nat.pow_le_pow_right (by norm_num) hmk
      omega
    · rw [if_neg hlt]
      exact ⟨k, le_rfl, rfl, by omega,
        fun m hm _ => Nat.pow_le_pow_right (by norm_num) hm⟩

theorem next_power_of_two_spec (n : Nat) :
    ∃ j, next_power_of_two n = 2 ^ j ∧ n ≤ 2 ^ j ∧
      ∀ m, n ≤ 2 ^ m → 2 ^ j ≤ 2 ^ m := by
  obtain ⟨j, _, heq, hn, hmin⟩ :=
    nextPowerOfTwoGo_spec n 0 n (by simpa using Nat.le_of_lt (Nat.lt_two_pow n))
  exact ⟨j, heq, hn, fun m hm => hmin m (Nat.zero_le m) hm⟩

theorem writeData_length {α : Type} :
    ∀ (xs : List α) (data : List α) (pos mask : Nat),
      (writeData data pos mask xs).length = data.length
  | [], _, _, _ => rfl
  | x :: xs, data, pos, mask => by
    rw [writeData, writeData_length xs]
    simp

theorem RingBuffer.wf_new (α : Type) [Inhabited α] (c : Nat) :
    (RingBuffer.new α c).Wf := by
  obtain ⟨k, heq, -, -⟩ := next_power_of_two_spec c
  exact ⟨Nat.le_refl 0, Nat.zero_le _, by simp [RingBuffer.new], rfl, k, heq⟩

theorem RingBuffer.write_spec {α : Type} (b : RingBuffer α) (s : List α) :
    (b.write s).1.read_pos = b.read_pos ∧
    (b.write s).1.write_pos
      = b.write_pos + min s.length (b.capacity - (b.write_pos - b.read_pos)) ∧
    (b.write s).1.capacity = b.capacity ∧
    (b.write s).1.mask = b.mask ∧
    (b.write s).1.data.length = b.data.length ∧
    (b.write s).2 = min s.length (b.capacity - (b.write_pos - b.read_pos)) := by
  unfold RingBuffer.write
  dsimp only
  split
  · rename_i h
    exact ⟨rfl, by simp [h], rfl, rfl, rfl, h.symm⟩
  · exact ⟨rfl, rfl, rfl, rfl, writeData_length _ _ _ _, rfl⟩

theorem RingBuffer.read_spec {α : Type} [Inhabited α] (b : RingBuffer α)
    (n : Nat) :
    (b.read n).1.read_pos = b.read_pos + min n (b.write_pos - b.read_pos) ∧
    (b.read n).1.write_pos = b.write_pos ∧
    (b.read n).1.capacity = b.capacity ∧
    (b.read n).1.mask = b.mask ∧
    (b.read n).1.data = b.data ∧
    (b.read n).2.length = min n (b.write_pos - b.read_pos) := by
  unfold RingBuffer.read
  dsimp only
  split
  · rename_i h
    exact ⟨by simp [h], rfl, rfl, rfl, rfl, by simp [h]⟩
  · exact ⟨rfl, rfl, rfl, rfl, rfl, by simp⟩

theorem RingBuffer.wf_write {α : Type} (b : RingBuffer α) (s : List α)
    (h : b.Wf) : (b.write s).1.Wf := by
  obtain ⟨h1, h2, h3, h4, k, h5⟩ := h
  obtain ⟨e1, e2, e3, e4, e5, -⟩ := b.write_spec s
  exact ⟨by omega, by omega, by omega, by omega, k, by omega⟩

theorem RingBuffer.wf_read {α : Type} [Inhabited α] (b : RingBuffer α)
    (n : Nat) (h : b.Wf) : (b.read n).1.Wf := by
  obtain ⟨h1, h2, h3, h4, k, h5⟩ := h
  obtain ⟨e1, e2, e3, e4, e5, -⟩ := b.read_spec n
  refine ⟨by omega, by omega, ?_, by omega, k, by omega⟩
  rw [e5, e3]; exact h3

theorem RingBuffer.wf_clear {α : Type} (b : RingBuffer α) (h : b.Wf) :
    b.clear.Wf := by
  obtain ⟨h1, h2, h3, h4, k, h5⟩ := h
  exact ⟨Nat.le_refl _, Nat.le_add_right _ _, h3, h4, k, h5⟩

theorem RingBuffer.wf_applyOp {α : Type} [Inhabited α] (b : RingBuffer α)
    (op : RBOp α) (h : b.Wf) : (b.applyOp op).Wf := by
  cases op with
  | write s => exact b.wf_write s h
  | read n => exact b.wf_read n h
  | clear => exact b.wf_clear h

theorem RingBuffer.wf_runOps {α : Type} [Inhabited α] :
    ∀ (ops : List (RBOp α)) (b : RingBuffer α), b.Wf → (b.runOps ops).Wf
  | [], _, h => h
  | op :: ops, b, h =>
    RingBuffer.wf_runOps ops (b.applyOp op) (b.wf_applyOp op h)

theorem RingBuffer.read_of_available_zero {α : Type} [Inhabited α]
    (b : RingBuffer α) (n : Nat) (h : b.available = 0) :
    b.read n = (b, []) := by
  unfold RingBuffer.read
  dsimp only
  rw [show b.write_pos - b.read_pos = 0 from h, Nat.min_zero]
  simp

theorem RingBuffer.clear_available {α : Type} (b : RingBuffer α) :
    b.clear.available = 0 := by
  simp [RingBuffer.clear, RingBuffer.available]

theorem TripleRingBuffer.process_of_output_empty (t : TripleRingBuffer)
    (input : List ℚ) (n : Nat) (h : t.ring_output.available = 0) :
    ∃ t', t.process input n = Except.ok (t', [], 0) ∧
      t'.ring_output = t.ring_output := by
  unfold TripleRingBuffer.process
  rw [t.ring_output.read_of_available_zero n h]
  exact ⟨_, rfl, rfl⟩

theorem TripleRingBuffer.output_empty_applyOp (t : TripleRingBuffer)
    (op : TROp) (h : t.ring_output.available = 0) :
    (t.applyOp op).ring_output.available = 0 := by
  cases op with
  | process input n =>
      obtain ⟨t', heq, hout⟩ := t.process_of_output_empty input n h
      simp [TripleRingBuffer.applyOp, heq, hout, h]
  | clear_all => exact t.ring_output.clear_available

theorem TripleRingBuffer.output_empty_runOps :
    ∀ (ops : List TROp) (t : TripleRingBuffer),
      t.ring_output.available = 0 →
      (t.runOps ops).ring_output.available = 0
  | [], _, h => h
  | op :: ops, t, h =>
    TripleRingBuffer.output_empty_runOps ops (t.applyOp op)
      (t.output_empty_applyOp op h)

theorem TripleRingBuffer.new_output_empty (size : Nat) :
    (TripleRingBuffer.new size).ring_output.available = 0 := rfl

theorem getD_set_ne {α : Type} (l : List α) (i j : Nat) (a d : α)
    (h : i ≠ j) : (l.set i a).getD j d = l.getD j d := by
  simp [List.getD_eq_getElem?_getD, List.getElem?_set_ne h]

theorem getD_set_self {α : Type} (l : List α) (i : Nat) (a d : α)
    (h : i < l.length) : (l.set i a).getD i d = a := by
  simp [List.getD_eq_getElem?_getD, List.getElem?_set_self h]

theorem mod_shift_ne (c pos u : Nat) (hu1 : 0 < u) (hu2 : u < c) :
    pos % c ≠ (pos + u) % c := by
  intro h
  have hmodeq : pos + u ≡ pos + 0 [MOD c] := by
    simpa [Nat.ModEq] using h.symm
  have hu0 : u ≡ 0 [MOD c] := Nat.ModEq.add_left_cancel' pos hmodeq
  have hdvd : c ∣ u := by
    simpa [Nat.modEq_zero_iff_dvd] using hu0
  exact absurd (Nat.le_of_dvd hu1 hdvd) (by omega)

theorem writeData_getD_frame {α : Type} :
    ∀ (xs : List α) (data : List α) (pos mask j : Nat) (d : α),
      (∀ t, t < xs.length → j ≠ (pos + t) &&& mask) →
      (writeData data pos mask xs).getD j d = data.getD j d
  | [], _, _, _, _, _, _ => rfl
  | x :: xs, data, pos, mask, j, d, hj => by
    rw [writeData,
      writeData_getD_frame xs _ _ _ _ _ (fun t ht => by
        have h := hj (t + 1) (by simpa using Nat.succ_lt_succ ht)
        simpa [show pos + (t + 1) = pos + 1 + t from by omega] using h)]
    refine getD_set_ne _ _ _ _ _ (fun hcontra => ?_)
    have h0 := hj 0 (Nat.succ_pos _)
    simp at h0
    exact h0 hcontra.symm

theorem writeData_getD_in {α : Type} :
    ∀ (xs : List α) (data : List α) (pos k j : Nat) (d : α),
      data.length = 2 ^ k → xs.length ≤ 2 ^ k → j < xs.length →
      (writeData data pos (2 ^ k - 1) xs).getD ((pos + j) &&& (2 ^ k - 1)) d
        = xs.getD j d
  | [], _, _, _, _, _, _, _, hj => absurd hj (by simp)
  | x :: xs, data, pos, k, 0, d, hdl, hxl, hj => by
    rw [writeData]
    rw [writeData_getD_frame xs _ _ _ _ _ (fun t ht => ?_)]
    · rw [Nat.add_zero, Nat.and_pow_two_sub_one_eq_mod]
      exact getD_set_self _ _ _ _
        (by rw [hdl]; exact Nat.mod_lt _ (Nat.pos_pow_of_pos k (by omega)))
    · rw [Nat.add_zero, Nat.and_pow_two_sub_one_eq_mod,
        Nat.and_pow_two_sub_one_eq_mod]
      rw [show pos + 1 + t = pos + (1 + t) from by omega]
      refine mod_shift_ne (2 ^ k) pos (1 + t) (by omega) ?_
      have hxs : xs.length + 1 ≤ 2 ^ k := by simpa using hxl
      omega
  | x :: xs, data, pos, k, j + 1, d, hdl, hxl, hj => by
    rw [writeData]
    rw [show pos + (j + 1) = pos + 1 + j from by omega]
    have := writeData_getD_in xs (data.set (pos &&& (2 ^ k - 1)) x) (pos + 1) k
      j d (by rw [List.length_set]; exact hdl)
      (le_trans (by simp) hxl) (by simpa using Nat.lt_of_succ_lt_succ hj)
    simpa using this

theorem list_getD_range {α : Type} [Inhabited α] (l : List α) :
    (List.range l.length).map (fun i => l.getD i default) = l := by
  apply List.ext_getElem
  · simp
  · intro i h1 h2
    simp [List.getD_eq_getElem?_getD, List.getElem?_eq_getElem h2]

theorem setFold_length {α : Type} (c : Nat → Prop) [DecidablePred c]
    (v : Nat → α) :
    ∀ (m : Nat) (l : List α),
      ((List.range m).foldl
        (fun acc i => if c i then acc.set i (v i) else acc) l).length
        = l.length
  | 0, _ => rfl
  | m + 1, l => by
    rw [List.range_succ, List.foldl_append]
    dsimp only [List.foldl]
    split
    · rw [List.length_set, setFold_length c v m l]
    · rw [setFold_length c v m l]

theorem setFold_getD_ge {α : Type} (c : Nat → Prop) [DecidablePred c]
    (v : Nat → α) (d : α) :
    ∀ (m : Nat) (l : List α) (i : Nat), m ≤ i →
      ((List.range m).foldl
        (fun acc i => if c i then acc.set i (v i) else acc) l).getD i d
        = l.getD i d
  | 0, _, _, _ => rfl
  | m + 1, l, i, hi => by
    rw [List.range_succ, List.foldl_append]
    dsimp only [List.foldl]
    split
    · rw [getD_set_ne _ _ _ _ _ (by omega), setFold_getD_ge c v d m l i (by omega)]
    · rw [setFold_getD_ge c v d m l i (by omega)]

theorem setFold_getD_lt {α : Type} (c : Nat → Prop) [DecidablePred c]
    (v : Nat → α) (d : α) :
    ∀ (m : Nat) (l : List α) (i : Nat), i < m → m ≤ l.length →
      ((List.range m).foldl
        (fun acc i => if c i then acc.set i (v i) else acc) l).getD i d
        = if c i then v i else l.getD i d
  | 0, _, _, hi, _ => absurd hi (by omega)
  | m + 1, l, i, hi, hm => by
    rw [List.range_succ, List.foldl_append]
    dsimp only [List.foldl]
    by_cases him : i = m
    · subst him
      by_cases hc : c i
      · rw [if_pos hc, if_pos hc,
          getD_set_self _ _ _ _ (by rw [setFold_length c v]; omega)]
      · rw [if_neg hc, if_neg hc, setFold_getD_ge c v d i l i le_rfl]
    · have him2 : i < m := by omega
      by_cases hc : c m
      · rw [if_pos hc, getD_set_ne _ _ _ _ _ (by omega),
          setFold_getD_lt c v d m l i him2 (by omega)]
      · rw [if_neg hc, setFold_getD_lt c v d m l i him2 (by omega)]

theorem ratToUsize_div_two (i : Nat) : ratToUsize ((i : ℚ) / 2) = i / 2 := by
  have h := ratToUsize_natCast_div i 2
  norm_num at h
  exact h

theorem ratToUsize_mul_two (L : Nat) : ratToUsize ((L : ℚ) * 2) = 2 * L := by
  have h : ((L : ℚ) * 2) = ((2 * L : Nat) : ℚ) := by push_cast; ring
  rw [h, ratToUsize_natCast]

theorem filterMap_length_of_isSome {α β : Type} :
    ∀ (l : List α) (f : α → Option β), (∀ a ∈ l, (f a).isSome) →
      (l.filterMap f).length = l.length
  | [], _, _ => rfl
  | a :: l, f, h => by
    rw [List.filterMap_cons]
    cases hfa : f a with
    | none => exact absurd (h a (by simp)) (by simp [hfa])
    | some b =>
        simp [filterMap_length_of_isSome l f (fun x hx => h x (by simp [hx]))]

theorem getD_mem {α : Type} (l : List α) (i : Nat) (d : α)
    (h : i < l.length) : l.getD i d ∈ l := by
  rw [List.getD_eq_getElem?_getD, List.getElem?_eq_getElem h]
  exact List.getElem_mem h

/-! ## Claims -/

/-- Claim C3: starting from `RingBuffer::new`, after every sequence of
`write`, `read` and `clear` operations the cursor invariant
`read_pos ≤ write_pos ≤ read_pos + capacity` holds, hence
`available ≤ capacity` and `available + free_space = capacity`. -/
theorem ringBuffer_cursor_invariant (α : Type) [Inhabited α] (c : Nat)
    (ops : List (RBOp α)) :
    ((RingBuffer.new α c).runOps ops).read_pos
        ≤ ((RingBuffer.new α c).runOps ops).write_pos ∧
      ((RingBuffer.new α c).runOps ops).write_pos
        ≤ ((RingBuffer.new α c).runOps ops).read_pos
            + ((RingBuffer.new α c).runOps ops).capacity ∧
      ((RingBuffer.new α c).runOps ops).available
        ≤ ((RingBuffer.new α c).runOps ops).capacity ∧
      ((RingBuffer.new α c).runOps ops).available
          + ((RingBuffer.new α c).runOps ops).free_space
        = ((RingBuffer.new α c).runOps ops).capacity := by
  obtain ⟨h1, h2, -, -, -, -⟩ :=
    RingBuffer.wf_runOps ops (RingBuffer.new α c) (RingBuffer.wf_new α c)
  simp only [RingBuffer.available, RingBuffer.free_space]
  omega

/-- Claim C2: under any sequence of `process` and `clear_all` calls
from `TripleRingBuffer::new`, nothing ever populates the output stage:
`ring_output.available()` stays 0 and every `process` call returns
`Ok(0)` (copying nothing into the output slice). -/
theorem tripleRingBuffer_output_stays_empty (size : Nat) (ops : List TROp)
    (input : List ℚ) (output_len : Nat) :
    (((TripleRingBuffer.new size).runOps ops).ring_output.available = 0) ∧
      ∃ t', ((TripleRingBuffer.new size).runOps ops).process input output_len
        = Except.ok (t', [], 0) := by
  have h := TripleRingBuffer.output_empty_runOps ops
    (TripleRingBuffer.new size) (TripleRingBuffer.new_output_empty size)
  obtain ⟨t', heq, -⟩ :=
    TripleRingBuffer.process_of_output_empty _ input output_len h
  exact ⟨h, t', heq⟩

/-- Claim C4 (refuted as stated): a reachable but non-empty buffer
falsifies the round trip.  After writing `[5]` into `new 2`, the
sequence `s = [7]` has `s.length = 1 ≤ free_space() = 1`, both calls
return 1, yet the read yields the older buffered value `[5]`, not
`s`. -/
theorem ringBuffer_roundtrip_cex :
    ((((RingBuffer.new ℚ 2).write [5]).1).free_space = 1) ∧
      (((((RingBuffer.new ℚ 2).write [5]).1).write [7]).2 = 1) ∧
      (((((RingBuffer.new ℚ 2).write [5]).1).write [7]).1.read 1).2 = [5] ∧
      [(5 : ℚ)] ≠ [7] := by
  decide

/-- Claim C4 (amended: additionally require the buffer to be empty,
`available() = 0`, before the write — the code returns the oldest
buffered data first, so a non-empty buffer yields older samples): from
every reachable empty state, writing `s` with `s.length ≤ free_space()`
and then reading `s.length` samples returns `s.length` from both calls
and yields exactly `s` in order. -/
theorem ringBuffer_roundtrip (α : Type) [Inhabited α] (c : Nat)
    (ops : List (RBOp α)) (s : List α)
    (hempty : ((RingBuffer.new α c).runOps ops).available = 0)
    (hlen : s.length ≤ ((RingBuffer.new α c).runOps ops).free_space) :
    ((((RingBuffer.new α c).runOps ops).write s).2 = s.length) ∧
      (((((RingBuffer.new α c).runOps ops).write s).1.read s.length).2 = s) := by
  obtain ⟨h1, h2, h3, h4, k, h5⟩ :=
    RingBuffer.wf_runOps ops (RingBuffer.new α c) (RingBuffer.wf_new α c)
  set b := (RingBuffer.new α c).runOps ops with hb
  simp only [RingBuffer.available] at hempty
  simp only [RingBuffer.free_space, RingBuffer.available] at hlen
  have hwr : b.write_pos = b.read_pos := by omega
  have hcap : s.length ≤ b.capacity := by omega
  by_cases hnil : s.length = 0
  · have hs : s = [] := List.eq_nil_of_length_eq_zero hnil
    subst hs
    exact ⟨by simp [RingBuffer.write], by simp [RingBuffer.write, RingBuffer.read]⟩
  · have hmin : min s.length (b.capacity - (b.write_pos - b.read_pos))
        = s.length := by omega
    have hw : b.write s =
        ({ data := writeData b.data b.write_pos b.mask s
           write_pos := b.write_pos + s.length
           read_pos := b.read_pos
           capacity := b.capacity
           mask := b.mask }, s.length) := by
      unfold RingBuffer.write
      dsimp only
      rw [hmin, if_neg hnil, List.take_length]
    rw [hw]
    refine ⟨rfl, ?_⟩
    unfold RingBuffer.read
    dsimp only
    have havail : b.write_pos + s.length - b.read_pos = s.length := by omega
    rw [havail, Nat.min_self, if_neg hnil]
    dsimp only
    have hmask : b.mask = 2 ^ k - 1 := by omega
    calc (List.range s.length).map
          (fun i => (writeData b.data b.write_pos b.mask s).getD
            ((b.read_pos + i) &&& b.mask) default)
        = (List.range s.length).map (fun i => s.getD i default) := by
          refine List.map_congr_left (fun i hi => ?_)
          rw [List.mem_range] at hi
          rw [hmask, ← hwr]
          exact writeData_getD_in s b.data b.write_pos k i default
            (by omega) (by omega) hi
      _ = s := list_getD_range s

/-- Witness for the amended C4: on a freshly created buffer of
capacity 4 (reached by the empty operation sequence), writing
`[1, 2, 3]` and reading back 3 samples round-trips exactly. -/
theorem ringBuffer_roundtrip_witness :
    ((((RingBuffer.new ℚ 4).runOps []).write [1, 2, 3]).2
        = [(1 : ℚ), 2, 3].length) ∧
      ((((RingBuffer.new ℚ 4).runOps []).write [1, 2, 3]).1.read
          [(1 : ℚ), 2, 3].length).2 = [1, 2, 3] :=
  ringBuffer_roundtrip ℚ 4 [] [1, 2, 3] (by decide) (by decide)

/-- Claim C7: when the rates differ, `AudioProcessor::process` returns
`Ok(n)` with `n = min(⌊input.len * resample_factor⌋, output.len)`, and
for every output index `i < n` whose source index
`⌊i / resample_factor⌋` is in bounds, it writes
`output[i] = input[⌊i / resample_factor⌋]` (previous-sample selection,
no interpolation). -/
theorem audioProcessor_resample (ir outr ch : Nat) (fmt : AudioFormat)
    (input output : List ℚ) (hne : ir ≠ outr) :
    ∃ out',
      (AudioProcessor.new ir outr ch fmt).process input output
          = Except.ok (out',
              min (ratToUsize ((input.length : ℚ)
                  * (AudioProcessor.new ir outr ch fmt).resample_factor))
                output.length) ∧
        ∀ i, i < min (ratToUsize ((input.length : ℚ)
              * (AudioProcessor.new ir outr ch fmt).resample_factor))
            output.length →
          ratToUsize ((i : ℚ)
              / (AudioProcessor.new ir outr ch fmt).resample_factor)
            < input.length →
          out'.getD i 0 = input.getD (ratToUsize ((i : ℚ)
              / (AudioProcessor.new ir outr ch fmt).resample_factor)) 0 := by
  unfold AudioProcessor.process
  rw [if_neg (show ¬ ((AudioProcessor.new ir outr ch fmt).input_sample_rate
      = (AudioProcessor.new ir outr ch fmt).output_sample_rate) from hne)]
  dsimp only
  refine ⟨_, rfl, fun i hi hsrc => ?_⟩
  have h := setFold_getD_lt
    (fun j => ratToUsize ((j : ℚ)
        / (AudioProcessor.new ir outr ch fmt).resample_factor) < input.length)
    (fun j => input.getD (ratToUsize ((j : ℚ)
        / (AudioProcessor.new ir outr ch fmt).resample_factor)) 0)
    0
    (min (ratToUsize ((input.length : ℚ)
        * (AudioProcessor.new ir outr ch fmt).resample_factor)) output.length)
    output i hi (min_le_right _ _)
  simpa [hsrc] using h

/-- Witness for C7: doubling from rate 1 to rate 2 on `[10, 20]` into a
five-slot output: the count is `min 4 5 = 4` and positions 0–3 hold the
previous-sample values. -/
theorem audioProcessor_resample_witness :
    ∃ out',
      (AudioProcessor.new 1 2 1 AudioFormat.F32LE).process [10, 20]
            [0, 0, 0, 0, 0]
          = Except.ok (out',
              min (ratToUsize (([(10 : ℚ), 20].length : ℚ)
                  * (AudioProcessor.new 1 2 1 AudioFormat.F32LE).resample_factor))
                [(0 : ℚ), 0, 0, 0, 0].length) ∧
        ∀ i, i < min (ratToUsize (([(10 : ℚ), 20].length : ℚ)
              * (AudioProcessor.new 1 2 1 AudioFormat.F32LE).resample_factor))
            [(0 : ℚ), 0, 0, 0, 0].length →
          ratToUsize ((i : ℚ)
              / (AudioProcessor.new 1 2 1 AudioFormat.F32LE).resample_factor)
            < [(10 : ℚ), 20].length →
          out'.getD i 0 = [(10 : ℚ), 20].getD (ratToUsize ((i : ℚ)
              / (AudioProcessor.new 1 2 1 AudioFormat.F32LE).resample_factor)) 0 :=
  audioProcessor_resample 1 2 1 AudioFormat.F32LE [10, 20] [0, 0, 0, 0, 0]
    (by decide)

/-- Claim C8: no specified operation fails: `AudioProcessor::process`,
`Resampler::process` and `TripleRingBuffer::process` always return
`Ok`; short reads/writes surface only in the returned counts. -/
theorem process_never_errors :
    (∀ (p : AudioProcessor) (input output : List ℚ),
      ∃ v, p.process input output = Except.ok v) ∧
      (∀ (r : Resampler) (input : List ℚ),
        ∃ v, r.process input = Except.ok v) ∧
      (∀ (t : TripleRingBuffer) (input : List ℚ) (n : Nat),
        ∃ v, t.process input n = Except.ok v) := by
  refine ⟨fun p input output => ?_, fun r input => ?_, fun t input n => ?_⟩
  · unfold AudioProcessor.process
    dsimp only
    split
    · exact ⟨_, rfl⟩
    · exact ⟨_, rfl⟩
  · unfold Resampler.process
    dsimp only
    split
    · exact ⟨_, rfl⟩
    · exact ⟨_, rfl⟩
  · exact ⟨_, rfl⟩

/-- Claim C10: for every format and byte slice, `bytes_to_samples`
returns exactly `⌊len / bytes_per_sample⌋` samples; trailing bytes are
ignored and never cause a failure. -/
theorem bytes_to_samples_length (p : AudioProcessor) (fmt : AudioFormat)
    (input : List (Fin 256)) :
    (p.bytes_to_samples input fmt).length
      = input.length / fmt.bytes_per_sample := by
  cases fmt <;>
    simp [AudioProcessor.bytes_to_samples, AudioFormat.bytes_per_sample]

/-- Claim C1 (refuted by the code): the `S24LE` decode path zero-extends
the 3-byte group — `bytes[3]` stays 0 — so the group `[0x00, 0x00, 0x80]`
(third byte's high bit set) decodes to the positive sample
`8388608 / 8388607`, not a negative one. -/
theorem s24le_high_bit_decodes_positive :
    (AudioProcessor.new 48000 48000 2 .F32LE).bytes_to_samples
        [0, 0, 128] .S24LE = [(8388608 : ℚ) / 8388607] ∧
      (0 : ℚ) < 8388608 / 8388607 := by
  refine ⟨?_, by norm_num⟩
  norm_num [AudioProcessor.bytes_to_samples, AudioFormat.bytes_per_sample,
    toSigned32, leVal4, List.range_succ,
    show ((128 : Fin 256) : Nat) = 128 from rfl]

/-- Claim C5: the concrete scenario on `RingBuffer::<f32>::new(8)`:
`write [1,2,3]` returns 3 with 3 available, a write of ten zeros
returns 5 with 8 available, a read into a 10-slot buffer returns the
8 buffered values in order, and a further read returns 0. -/
theorem ringBuffer_capacity8_scenario :
    (((RingBuffer.new ℚ 8).write [1, 2, 3]).2 = 3) ∧
    ((((RingBuffer.new ℚ 8).write [1, 2, 3]).1).available = 3) ∧
    (((((RingBuffer.new ℚ 8).write [1, 2, 3]).1).write
        [0, 0, 0, 0, 0, 0, 0, 0, 0, 0]).2 = 5) ∧
    (((((RingBuffer.new ℚ 8).write [1, 2, 3]).1).write
        [0, 0, 0, 0, 0, 0, 0, 0, 0, 0]).1.available = 8) ∧
    ((((((RingBuffer.new ℚ 8).write [1, 2, 3]).1).write
        [0, 0, 0, 0, 0, 0, 0, 0, 0, 0]).1.read 10).2
      = [1, 2, 3, 0, 0, 0, 0, 0]) ∧
    ((((((RingBuffer.new ℚ 8).write [1, 2, 3]).1).write
        [0, 0, 0, 0, 0, 0, 0, 0, 0, 0]).1.read 10).1.read 10).2.length = 0 := by
  decide

/-- Claim C6: `RingBuffer::new(c)` allocates storage whose capacity is
the smallest power of two `≥ c`; in particular `new 0` and `new 1`
have capacity 1, and a power-of-two request is kept unchanged. -/
theorem ringBuffer_new_capacity (α : Type) [Inhabited α] (c : Nat) :
    ((RingBuffer.new α c).data.length = (RingBuffer.new α c).capacity) ∧
    c ≤ (RingBuffer.new α c).capacity ∧
    (∃ k, (RingBuffer.new α c).capacity = 2 ^ k) ∧
    (∀ m, c ≤ 2 ^ m → (RingBuffer.new α c).capacity ≤ 2 ^ m) ∧
    (RingBuffer.new α 0).capacity = 1 ∧
    (RingBuffer.new α 1).capacity = 1 ∧
    (∀ k, (RingBuffer.new α (2 ^ k)).capacity = 2 ^ k) := by
  have hcap : ∀ d : Nat, (RingBuffer.new α d).capacity = next_power_of_two d :=
    fun d => rfl
  have hdata : (RingBuffer.new α c).data.length = (RingBuffer.new α c).capacity := by
    simp [RingBuffer.new]
  obtain ⟨j, heq, hle, hmin⟩ := next_power_of_two_spec c
  refine ⟨hdata, ?_, ⟨j, by rw [hcap, heq]⟩, ?_, by rw [hcap]; decide,
    by rw [hcap]; decide, ?_⟩
  · rw [hcap, heq]; exact hle
  · intro m hm; rw [hcap, heq]; exact hmin m hm
  · intro k
    obtain ⟨j', heq', hle', hmin'⟩ := next_power_of_two_spec (2 ^ k)
    rw [hcap, heq']
    exact le_antisymm (hmin' k le_rfl) hle'

/-- Witness for C6 at `c = 5`: capacity is at least 5 and at most
`2 ^ 3 = 8`. -/
theorem ringBuffer_new_capacity_witness :
    5 ≤ (RingBuffer.new ℚ 5).capacity ∧ (RingBuffer.new ℚ 5).capacity ≤ 2 ^ 3 :=
  ⟨(ringBuffer_new_capacity ℚ 5).2.1,
   (ringBuffer_new_capacity ℚ 5).2.2.2.1 3 (by norm_num)⟩

/-- Claim C9: `Resampler::new(48000, 96000, 2).process` returns `Ok`
of exactly `2·L` samples for every length-`L` input, and when every
input sample lies in `[-1, 1]`, every output sample lies in `[-1, 1]`
(all values of the exact rational model are finite by construction,
so no NaN or infinity can appear). -/
theorem resampler_doubles (input : List ℚ) :
    ∃ out, (Resampler.new 48000 96000 2).process input = Except.ok out ∧
      out.length = 2 * input.length ∧
      ((∀ x ∈ input, -1 ≤ x ∧ x ≤ 1) → ∀ y ∈ out, -1 ≤ y ∧ y ≤ 1) := by
  have hkey : (Resampler.new 48000 96000 2).process input
      = Except.ok ((List.range (2 * input.length)).filterMap (fun i =>
          if i / 2 + 1 < input.length then
            some (input.getD (i / 2) 0
              + (input.getD (i / 2 + 1) 0 - input.getD (i / 2) 0)
                * ((i : ℚ) / 2 - ((i / 2 : Nat) : ℚ)))
          else if i / 2 < input.length then some (input.getD (i / 2) 0)
          else none)) := by
    unfold Resampler.process
    rw [if_neg (by decide)]
    dsimp only
    have hr : (((Resampler.new 48000 96000 2).output_rate : ℚ)
        / ((Resampler.new 48000 96000 2).input_rate : ℚ)) = 2 := by
      norm_num [Resampler.new]
    rw [hr]
    simp only [ratToUsize_mul_two, ratToUsize_div_two]
  refine ⟨_, hkey, ?_, fun hin y hy => ?_⟩
  · rw [filterMap_length_of_isSome, List.length_range]
    intro i hi
    rw [List.mem_range] at hi
    have hlt : i / 2 < input.length := by omega
    by_cases h1 : i / 2 + 1 < input.length
    · simp [h1]
    · simp [h1, hlt]
  · rw [List.mem_filterMap] at hy
    obtain ⟨i, hi, hfi⟩ := hy
    rw [List.mem_range] at hi
    have hlt : i / 2 < input.length := by omega
    set f : ℚ := (i : ℚ) / 2 - ((i / 2 : Nat) : ℚ) with hf
    have hfr0 : (0 : ℚ) ≤ f := by
      have hc : ((i / 2 : Nat) : ℚ) * 2 ≤ (i : ℚ) := by
        exact_mod_cast Nat.div_mul_le_self i 2
      rw [hf]; linarith
    have hfr1 : f < 1 := by
      have hc : (i : ℚ) < ((i / 2 : Nat) : ℚ) * 2 + 2 := by
        exact_mod_cast (by omega : i < i / 2 * 2 + 2)
      rw [hf]; linarith
    by_cases h1 : i / 2 + 1 < input.length
    · rw [if_pos h1, Option.some.injEq] at hfi
      obtain ⟨hy0l, hy0r⟩ := hin _ (getD_mem input (i / 2) 0 hlt)
      obtain ⟨hy1l, hy1r⟩ := hin _ (getD_mem input (i / 2 + 1) 0 h1)
      subst hfi
      set y0 : ℚ := input.getD (i / 2) 0
      set y1 : ℚ := input.getD (i / 2 + 1) 0
      constructor
      · nlinarith [mul_nonneg (by linarith : (0 : ℚ) ≤ 1 - f)
          (by linarith : (0 : ℚ) ≤ y0 + 1),
          mul_nonneg hfr0 (by linarith : (0 : ℚ) ≤ y1 + 1)]
      · nlinarith [mul_nonneg (by linarith : (0 : ℚ) ≤ 1 - f)
          (by linarith : (0 : ℚ) ≤ 1 - y0),
          mul_nonneg hfr0 (by linarith : (0 : ℚ) ≤ 1 - y1)]
    · rw [if_neg h1] at hfi
      by_cases h2 : i / 2 < input.length
      · rw [if_pos h2, Option.some.injEq] at hfi
        subst hfi
        exact hin _ (getD_mem input (i / 2) 0 h2)
      · rw [if_neg h2] at hfi
        exact absurd hfi (by simp)

/-- Witness for C9: on the bounded input `[1, -1, 1]` the resampler
returns `Ok` of six samples, all within `[-1, 1]`. -/
theorem resampler_doubles_witness :
    ∃ out, (Resampler.new 48000 96000 2).process [1, -1, 1]
        = Except.ok out ∧
      out.length = 2 * [(1 : ℚ), -1, 1].length ∧
      ∀ y ∈ out, -1 ≤ y ∧ y ≤ 1 := by
  obtain ⟨out, h1, h2, h3⟩ := resampler_doubles [1, -1, 1]
  exact ⟨out, h1, h2, h3 (by norm_num)⟩

end VirtualAudio
